import Mathlib

/-!
Verification development for the rsdb storage engine core
(file layer, log manager, buffer manager).

The Rust source is shallowly embedded: pages (`Cursor<Vec<u8>>`) become
byte functions `Nat → Nat`, machine integers become `Int`/`Nat` with
explicit range reasoning where it matters, the on-disk state becomes an
explicit `FM` record threaded through the operations, and fallible
operations (Rust panics such as `try_into().unwrap()` on a negative
offset or an unsigned-underflow decrement) return `Option`.
-/

namespace Rsdb

/-- Model of `I32_SIZE` from src/file.rs: `mem::size_of::<i32>()`. -/
def I32_SIZE : Nat := 4

/-- Model of `BLOCK_SIZE` from src/file.rs. -/
def BLOCK_SIZE : Nat := 4096

/-- A page's backing bytes, indexed by byte offset (source: `Cursor<Vec<u8>>`).
Bytes produced by the embedded operations are always `< 256`. -/
def PageData : Type := Nat → Nat

/-- Read `n` consecutive bytes starting at `off` (source: `read_exact` after
a seek to `off`). -/
def readBytes (p : PageData) (off n : Nat) : List Nat :=
(List.range n).map fun i => p (off + i)

/-- Overwrite the bytes at `[off, off + s.length)` with `s` (source:
`write_all` after a seek to `off`). -/
def writeBytes (p : PageData) (off : Nat) (s : List Nat) : PageData :=
fun i => if off ≤ i ∧ i < off + s.length then s.getD (i - off) 0 else p i

/-- Model of `i32::to_be_bytes` on a value reduced mod 2^32 (two's complement). -/
def encI32 (v : Int) : List Nat :=
[((v % 4294967296).toNat / 16777216) % 256,
 ((v % 4294967296).toNat / 65536) % 256,
 ((v % 4294967296).toNat / 256) % 256,
 (v % 4294967296).toNat % 256]

/-- Model of `i32::from_be_bytes`: recompose four big-endian bytes into a signed
32-bit value. -/
def decI32 (l : List Nat) : Int :=
let n : Nat := l.getD 0 0 * 16777216 + l.getD 1 0 * 65536 +
  l.getD 2 0 * 256 + l.getD 3 0
if n < 2147483648 then (n : Int) else (n : Int) - 4294967296

/-- Model of `Page::get_i32`: read 4 bytes at `offset`, big-endian. -/
def Page.get_i32 (p : PageData) (off : Nat) : Int :=
decI32 (readBytes p off 4)

/-- Model of `Page::set_i32`: write `val` as 4 big-endian bytes at `offset`. -/
def Page.set_i32 (p : PageData) (off : Nat) (v : Int) : PageData :=
writeBytes p off (encI32 v)

/-- Model of `Page::set_bytes`: write `byte.len()` as an i32 at `offset`, then the
payload right after it (the cursor is left just past the length field). -/
def Page.set_bytes (p : PageData) (off : Nat) (s : List Nat) : PageData :=
writeBytes (Page.set_i32 p off (s.length : Int)) (off + I32_SIZE) s

/-- Model of `Page::get_bytes`: read the i32 length at `offset`, then that many
bytes right after it.  The source casts the i32 length with `as usize`;
every reachable stored length is non-negative, for which `Int.toNat`
agrees with that cast. -/
def Page.get_bytes (p : PageData) (off : Nat) : List Nat :=
readBytes p (off + I32_SIZE) (Page.get_i32 p off).toNat

/-- The all-zero page `Page::new` allocates (`vec![0; capacity]`). -/
def zeroPage : PageData := fun _ => 0

theorem length_encI32 (v : Int) : (encI32 v).length = 4 := rfl

theorem length_readBytes (p : PageData) (off n : Nat) :
    (readBytes p off n).length = n := by
  simp [readBytes]

theorem writeBytes_at_of_lt (p : PageData) (off : Nat) (s : List Nat)
    (i : Nat) (h : i < s.length) :
    writeBytes p off s (off + i) = s.getD i 0 := by
  simp [writeBytes, h]

theorem writeBytes_at_of_notin (p : PageData) (off : Nat) (s : List Nat)
    (i : Nat) (h : i < off ∨ off + s.length ≤ i) :
    writeBytes p off s i = p i := by
  unfold writeBytes
  have : ¬ (off ≤ i ∧ i < off + s.length) := by omega
  simp [this]

theorem readBytes_writeBytes_self (p : PageData) (off : Nat) (s : List Nat) :
    readBytes (writeBytes p off s) off s.length = s := by
  apply List.ext_getElem
  · simp [readBytes]
  · intro i h1 h2
    have hi : i < s.length := by simpa [length_readBytes] using h1
    simp only [readBytes, List.getElem_map, List.getElem_range]
    rw [writeBytes_at_of_lt p off s i hi]
    exact List.getD_eq_getElem s 0 hi

theorem readBytes_writeBytes_disjoint (p : PageData) (off n off' : Nat)
    (s : List Nat) (h : off + n ≤ off' ∨ off' + s.length ≤ off) :
    readBytes (writeBytes p off' s) off n = readBytes p off n := by
  apply List.ext_getElem
  · simp [length_readBytes]
  · intro i h1 h2
    have hi : i < n := by simpa [length_readBytes] using h1
    simp only [readBytes, List.getElem_map, List.getElem_range]
    rw [writeBytes_at_of_notin]
    omega

theorem decI32_encI32 (v : Int) (h0 : 0 ≤ v) (h1 : v < 2147483648) :
    decI32 (encI32 v) = v := by
  unfold decI32 encI32
  have hmod : v % 4294967296 = v := Int.emod_eq_of_lt h0 (by omega)
  rw [hmod]
  simp only [List.getD_cons_zero, List.getD_cons_succ]
  have hn : v.toNat < 2147483648 := by omega
  have heq : v.toNat / 16777216 % 256 * 16777216 + v.toNat / 65536 % 256 * 65536 +
      v.toNat / 256 % 256 * 256 + v.toNat % 256 = v.toNat := by omega
  rw [heq, if_pos hn]
  omega

theorem get_i32_set_i32_self (p : PageData) (off : Nat) (v : Int)
    (h0 : 0 ≤ v) (h1 : v < 2147483648) :
    Page.get_i32 (Page.set_i32 p off v) off = v := by
  unfold Page.get_i32 Page.set_i32
  have h4 : (4 : Nat) = (encI32 v).length := (length_encI32 v).symm
  rw [h4, readBytes_writeBytes_self]
  exact decI32_encI32 v h0 h1

theorem get_i32_writeBytes_disjoint (p : PageData) (off off' : Nat)
    (s : List Nat) (h : off + 4 ≤ off' ∨ off' + s.length ≤ off) :
    Page.get_i32 (writeBytes p off' s) off = Page.get_i32 p off := by
  unfold Page.get_i32
  rw [readBytes_writeBytes_disjoint p off 4 off' s h]

theorem get_bytes_set_bytes_aux (p : PageData) (off : Nat) (b : List Nat)
    (hlen : (b.length : Int) < 2147483648) :
    Page.get_bytes (Page.set_bytes p off b) off = b ∧
    readBytes (Page.set_bytes p off b) off I32_SIZE = encI32 (b.length : Int) ∧
    readBytes (Page.set_bytes p off b) (off + I32_SIZE) b.length = b := by
  have hget : Page.get_i32 (Page.set_bytes p off b) off = (b.length : Int) := by
    unfold Page.set_bytes
    rw [get_i32_writeBytes_disjoint _ off (off + I32_SIZE) b (Or.inl (by
      unfold I32_SIZE; omega))]
    exact get_i32_set_i32_self p off _ (by positivity) hlen
  refine ⟨?_, ?_, ?_⟩
  · unfold Page.get_bytes
    rw [hget]
    have htn : ((b.length : Int)).toNat = b.length := Int.toNat_natCast b.length
    rw [htn]
    unfold Page.set_bytes
    exact readBytes_writeBytes_self _ _ b
  · unfold Page.set_bytes
    have hd : readBytes (writeBytes (Page.set_i32 p off (b.length : Int))
        (off + I32_SIZE) b) off I32_SIZE =
        readBytes (Page.set_i32 p off (b.length : Int)) off I32_SIZE := by
      unfold I32_SIZE
      exact readBytes_writeBytes_disjoint _ off 4 (off + 4) b (Or.inl (by omega))
    rw [hd]
    unfold Page.set_i32
    rw [show I32_SIZE = (encI32 (b.length : Int)).length from rfl]
    exact readBytes_writeBytes_self _ _ _
  · unfold Page.set_bytes
    exact readBytes_writeBytes_self _ _ b

/-- C9: the `set_bytes`/`get_bytes` round trip on a page: after
`set_bytes(off, b)` within the block bound, `get_bytes(off)` returns
exactly `b`, the length being stored as a big-endian 4-byte integer at
`off` followed immediately by the payload. -/
theorem set_bytes_get_bytes (p : PageData) (off : Nat) (b : List Nat)
    (h : off + I32_SIZE + b.length ≤ BLOCK_SIZE) :
    Page.get_bytes (Page.set_bytes p off b) off = b ∧
    readBytes (Page.set_bytes p off b) off I32_SIZE = encI32 (b.length : Int) ∧
    readBytes (Page.set_bytes p off b) (off + I32_SIZE) b.length = b := by
  have hlen : (b.length : Int) < 2147483648 := by
    have hb : b.length ≤ BLOCK_SIZE := by omega
    unfold BLOCK_SIZE at hb
    exact_mod_cast Nat.lt_of_le_of_lt hb (by norm_num)
  exact get_bytes_set_bytes_aux p off b hlen

/-- Model of `BlockId` from src/file.rs: a filename plus an `i32` block number. -/
structure BlockId where
  filename : String
  number : Int
deriving DecidableEq, Repr

/-- One file tracked by the file manager.  Every write performed by this
code base is a full, block-aligned page write, so the file size in bytes
is always `nblocks * block_size`; `data` gives each block's bytes
(all-zero until first written, matching OS zero-fill). -/
structure FMFile where
  data : Nat → PageData
  nblocks : Nat

/-- Model of `FileManager` state: the directory's files and the block size. -/
structure FM where
  files : String → FMFile
  blockSize : Nat

/-- A freshly created database directory: every file is absent (reads as
length 0, `get_file` creates it empty on demand). -/
def emptyFM (bs : Nat) : FM :=
{ files := fun _ => { data := fun _ => zeroPage, nblocks := 0 }, blockSize := bs }

/-- Model of `FileManager::length`: file size in bytes divided by the block size.
All writes are block-aligned full pages, so this is the block count. -/
def fmLength (fm : FM) (filename : String) : Nat :=
(fm.files filename).nblocks

/-- Number of bytes actually available to `read` at the block's offset:
`block_size` when the block exists, `0` when the seek position is at or
past EOF (including the huge `u64` offsets produced by casting a negative
`i32` offset). -/
def fmAvail (fm : FM) (blk : BlockId) : Nat :=
if 0 ≤ blk.number ∧ blk.number < (fmLength fm blk.filename : Int) then
  fm.blockSize
else 0

/-- Model of `FileManager::read`: seek to `block_size * number` and `f.read` into
the page; the byte count is discarded (`let _ = f.read(...)?`), so a
short read leaves the unread tail of the page unchanged and still
returns `Ok`.  In this model a short read only occurs with 0 bytes
available, so the page is returned untouched in that case. -/
def fmRead (fm : FM) (blk : BlockId) (p : PageData) : PageData :=
if 0 ≤ blk.number ∧ blk.number < (fmLength fm blk.filename : Int) then
  (fm.files blk.filename).data blk.number.toNat
else p

/-- Model of `FileManager::write`: seek to `block_size * number` and write the whole
page, extending the file (zero-filled) if the offset is past EOF.
Negative block numbers never occur at any call site. -/
def fmWrite (fm : FM) (blk : BlockId) (p : PageData) : FM :=
{ fm with files := fun f =>
    if f = blk.filename then
      { data := fun i => if i = blk.number.toNat then p else (fm.files f).data i,
        nblocks := max (fm.files f).nblocks (blk.number.toNat + 1) }
    else fm.files f }

/-- Model of `FileManager::append`: the source computes
`blk_num = filename.len() as i32`, seeks to `block_size * blk_num`, and
performs `write_all(&[])` — a zero-length write, which changes nothing
on disk (a seek alone does not extend a file).  The file state is
therefore unchanged and the returned block number is the filename's
length. -/
def fmAppend (fm : FM) (filename : String) : BlockId × FM :=
(⟨filename, (filename.length : Int)⟩, fm)

/-- A file of two blocks named "log", for exercising `append`. -/
def fmTwoBlocks : FM :=
fmWrite (fmWrite (emptyFM BLOCK_SIZE) ⟨"log", 0⟩ zeroPage) ⟨"log", 1⟩ zeroPage

/-- C3 (counterexample to the claim): on a file "log" of length 2 blocks,
`append` returns block number 3 (= the filename's length, not the prior
block count 2) and leaves the file length at 2 (it does not grow).  Both
halves of the claimed contract fail. -/
theorem fm_append_defect :
    (fmAppend fmTwoBlocks "log").1.number = 3 ∧
    fmLength (fmAppend fmTwoBlocks "log").2 "log" = 2 ∧
    ¬ (fmAppend fmTwoBlocks "log").1.number = 2 ∧
    ¬ fmLength (fmAppend fmTwoBlocks "log").2 "log" = 2 + 1 := by
  refine ⟨rfl, ?_, by decide, ?_⟩
  · show fmLength fmTwoBlocks "log" = 2
    simp [fmLength, fmTwoBlocks, fmWrite, emptyFM]
  · show ¬ fmLength fmTwoBlocks "log" = 2 + 1
    simp [fmLength, fmTwoBlocks, fmWrite, emptyFM]

/-- A scratch page whose byte 0 carries a sentinel value. -/
def markedPage : PageData := fun i => if i = 0 then 7 else 0

/-- C4 (counterexample to the claim): reading block 0 of an empty file has
0 bytes available (a short read: fewer than `block_size`), yet `read`
completes without error — the model's `fmRead` is total, mirroring
`let _ = f.read(...)` discarding the count — and leaves the caller's page
bytes untouched instead of failing with `IoError`. -/
theorem fm_read_short_read_defect :
    fmAvail (emptyFM BLOCK_SIZE) ⟨"f", 0⟩ = 0 ∧
    fmAvail (emptyFM BLOCK_SIZE) ⟨"f", 0⟩ < BLOCK_SIZE ∧
    fmRead (emptyFM BLOCK_SIZE) ⟨"f", 0⟩ markedPage 0 = 7 := by
  refine ⟨?_, ?_, ?_⟩
  · simp [fmAvail, fmLength, emptyFM]
  · simp [fmAvail, fmLength, emptyFM, BLOCK_SIZE]
  · simp [fmRead, fmLength, emptyFM, markedPage]

/-- Witness for C9 at a concrete page, offset and payload. -/
theorem set_bytes_get_bytes_witness :
    (10 + I32_SIZE + [1, 2, 3].length ≤ BLOCK_SIZE) ∧
    Page.get_bytes (Page.set_bytes zeroPage 10 [1, 2, 3]) 10 = [1, 2, 3] := by
  constructor
  · decide
  · exact (set_bytes_get_bytes zeroPage 10 [1, 2, 3] (by decide)).1

/-- Model of `LogManager` state from src/log.rs.  The file manager is threaded
explicitly instead of through `Arc<Mutex<_>>`. -/
structure LogMgr where
  fm : FM
  logFileName : String
  logPage : PageData
  curBlock : BlockId
  latestLsn : Int
  lastSavedLsn : Int

/-- Model of `LogManager::new`: if the log file is empty, append a block, set the
boundary to `block_size` and write it; otherwise read the last block into
the log page.  Both LSN counters start at 0. -/
def LogMgr.new (fm0 : FM) (name : String) : LogMgr :=
if fmLength fm0 name = 0 then
  let ap := fmAppend fm0 name
  let page := Page.set_i32 zeroPage 0 (fm0.blockSize : Int)
  { fm := fmWrite ap.2 ap.1 page, logFileName := name, logPage := page,
    curBlock := ap.1, latestLsn := 0, lastSavedLsn := 0 }
else
  let blk : BlockId := ⟨name, (fmLength fm0 name : Int) - 1⟩
  { fm := fm0, logFileName := name, logPage := fmRead fm0 blk zeroPage,
    curBlock := blk, latestLsn := 0, lastSavedLsn := 0 }

/-- Model of `LogManager::flush` (private): write the log page to `cur_block` and
advance `last_saved_lsn` to `latest_lsn`. -/
def LogMgr.flush (lm : LogMgr) : LogMgr :=
{ lm with fm := fmWrite lm.fm lm.curBlock lm.logPage,
          lastSavedLsn := lm.latestLsn }

/-- Model of `LogManager::flush_with_lsn`: flush only if `lsn >= last_saved_lsn`. -/
def LogMgr.flushWithLsn (lm : LogMgr) (lsn : Int) : LogMgr :=
if lsn ≥ lm.lastSavedLsn then lm.flush else lm

/-- Model of `LogManager::append_new_block`: `fm.append` the log file, reset the
log page's boundary to `block_size`, write the page to the new block. -/
def LogMgr.appendNewBlock (lm : LogMgr) : LogMgr × BlockId :=
let ap := fmAppend lm.fm lm.logFileName
let page := Page.set_i32 lm.logPage 0 (lm.fm.blockSize : Int)
({ lm with fm := fmWrite ap.2 ap.1 page, logPage := page }, ap.1)

/-- Model of `LogManager::append`: read the boundary; if the record (plus its
4-byte length prefix) does not leave `INT_SIZE` bytes at the front,
flush and start a new block; place the record at `boundary - need`,
store the new boundary at offset 0, and return the incremented
`latest_lsn`.  The source's `record_pos.try_into().unwrap()` panics when
`record_pos` is negative; that is `none` here. -/
def LogMgr.append (lm : LogMgr) (record : List Nat) : Option (LogMgr × Int) :=
let boundary := Page.get_i32 lm.logPage 0
let byteNeeded : Int := (record.length : Int) + (I32_SIZE : Int)
let st :=
  if boundary - byteNeeded < (I32_SIZE : Int) then
    let lmF := lm.flush
    let an := lmF.appendNewBlock
    let lm1 := { an.1 with curBlock := an.2 }
    (lm1, Page.get_i32 lm1.logPage 0)
  else (lm, boundary)
let recordPos := st.2 - byteNeeded
if recordPos < 0 then none
else
  let page := Page.set_i32 (Page.set_bytes st.1.logPage recordPos.toNat record)
    0 recordPos
  some ({ st.1 with logPage := page, latestLsn := st.1.latestLsn + 1 },
    st.1.latestLsn + 1)

/-- Model of `LogIterator` state from src/log.rs. -/
structure LogIter where
  blockId : BlockId
  page : PageData
  curPos : Int
  boundary : Int

/-- Model of `LogIterator::new`: read the block, position the cursor at the
boundary. -/
def LogIter.new (fm : FM) (blk : BlockId) : LogIter :=
let p := fmRead fm blk zeroPage
let b := Page.get_i32 p 0
{ blockId := blk, page := p, curPos := b, boundary := b }

/-- Model of `LogIterator::next`: the source first returns `None` when
`cur_pos >= block_size`, then has a block-switching branch guarded by
`cur_pos == block_size` — which is unreachable after the `>=` early
return; it is kept here exactly as written. -/
def LogIter.next (fm : FM) (it : LogIter) : Option (List Nat × LogIter) :=
if it.curPos ≥ (fm.blockSize : Int) then none
else
  let it1 :=
    if it.curPos = (fm.blockSize : Int) then
      let blk : BlockId := ⟨it.blockId.filename, it.blockId.number - 1⟩
      let p := fmRead fm blk it.page
      let b := Page.get_i32 p 0
      { blockId := blk, page := p, curPos := b, boundary := b }
    else it
  let record := Page.get_bytes it1.page it1.curPos.toNat
  some (record,
    { it1 with curPos := it1.curPos + ((I32_SIZE : Int) + (record.length : Int)) })

/-- Model of `LogManager::iterator`: flush, then build an iterator on `cur_block`. -/
def LogMgr.iterator (lm : LogMgr) : LogMgr × LogIter :=
let lmF := lm.flush
(lmF, LogIter.new lmF.fm lmF.curBlock)

/-- Collect the records an iterator yields (fuel-bounded driver for the
`Iterator::next` loop). -/
def iterRun (fm : FM) : LogIter → Nat → List (List Nat)
| _, 0 => []
| it, fuel + 1 =>
  match LogIter.next fm it with
  | none => []
  | some (r, it') => r :: iterRun fm it' fuel

/-- Two appends on a fresh log with block size 16: the second record
(needing 8 bytes against a boundary of 8) overflows into a new block, so
the appended records span two log blocks.  `c2run` is the record list the
iterator then yields. -/
def c2run : List (List Nat) :=
match LogMgr.append (LogMgr.new (emptyFM 16) "L") [1, 2, 3, 4] with
| none => []
| some s1 =>
  match LogMgr.append s1.1 [5, 6, 7, 8] with
  | none => []
  | some s2 => iterRun (LogMgr.iterator s2.1).1.fm (LogMgr.iterator s2.1).2 5

theorem get_bytes_set_i32_below (p : PageData) (off off' : Nat) (v : Int)
    (h : off' + 4 ≤ off) :
    Page.get_bytes (Page.set_i32 p off' v) off = Page.get_bytes p off := by
  unfold Page.get_bytes Page.set_i32 Page.get_i32
  rw [readBytes_writeBytes_disjoint p off 4 off' (encI32 v)
    (Or.inr (by rw [length_encI32]; omega))]
  rw [readBytes_writeBytes_disjoint p (off + I32_SIZE) _ off' (encI32 v)
    (Or.inr (by rw [length_encI32]; unfold I32_SIZE; omega))]

/-- Model of `byte_needed` in `LogManager::append`: the record plus its length
prefix. -/
def logNeed (record : List Nat) : Int := (record.length : Int) + (I32_SIZE : Int)

/-- The page update `LogManager::append` performs once a position is
chosen: `set_bytes(record_pos, record)` then `set_i32(0, record_pos)`. -/
def logPlace (p : PageData) (pos : Int) (record : List Nat) : PageData :=
Page.set_i32 (Page.set_bytes p pos.toNat record) 0 pos

theorem logPlace_boundary (p : PageData) (pos : Int) (record : List Nat)
    (h0 : 0 ≤ pos) (h1 : pos < 2147483648) :
    Page.get_i32 (logPlace p pos record) 0 = pos := by
  unfold logPlace
  exact get_i32_set_i32_self _ 0 pos h0 h1

theorem logPlace_record (p : PageData) (pos : Int) (record : List Nat)
    (h0 : (I32_SIZE : Int) ≤ pos) (h1 : (record.length : Int) < 2147483648) :
    Page.get_bytes (logPlace p pos record) pos.toNat = record := by
  unfold logPlace
  rw [get_bytes_set_i32_below _ _ 0 pos (by unfold I32_SIZE at h0; omega)]
  exact (get_bytes_set_bytes_aux p pos.toNat record h1).1

/-- C5: one call to `LogManager::append` on a page whose boundary `b` is
in range.  When `b - (INT_SIZE + n) ≥ INT_SIZE` the record lands at
`b - (INT_SIZE + n)` and that position becomes the new boundary, with no
disk traffic.  Otherwise the current block is flushed first (the
`fmWrite` of `cur_block` is innermost in the resulting file state), a
fresh block is written with its boundary reset to `block_size`, and the
record lands in the fresh page at `block_size - (INT_SIZE + n)`, which
becomes the new boundary. -/
theorem log_append_spec (lm : LogMgr) (record : List Nat)
    (hbs : lm.fm.blockSize ≤ 2147483647)
    (hbbs : Page.get_i32 lm.logPage 0 ≤ (lm.fm.blockSize : Int))
    (hfit : record.length + 2 * I32_SIZE ≤ lm.fm.blockSize) :
    ((I32_SIZE : Int) ≤ Page.get_i32 lm.logPage 0 - logNeed record →
      LogMgr.append lm record =
        some ({ lm with
          logPage := logPlace lm.logPage
            (Page.get_i32 lm.logPage 0 - logNeed record) record,
          latestLsn := lm.latestLsn + 1 }, lm.latestLsn + 1) ∧
      Page.get_i32 (logPlace lm.logPage
          (Page.get_i32 lm.logPage 0 - logNeed record) record) 0 =
        Page.get_i32 lm.logPage 0 - logNeed record ∧
      Page.get_bytes (logPlace lm.logPage
          (Page.get_i32 lm.logPage 0 - logNeed record) record)
          (Page.get_i32 lm.logPage 0 - logNeed record).toNat = record) ∧
    (Page.get_i32 lm.logPage 0 - logNeed record < (I32_SIZE : Int) →
      LogMgr.append lm record =
        some ({ lm.flush.appendNewBlock.1 with
          curBlock := lm.flush.appendNewBlock.2,
          logPage := logPlace lm.flush.appendNewBlock.1.logPage
            ((lm.fm.blockSize : Int) - logNeed record) record,
          latestLsn := lm.latestLsn + 1 }, lm.latestLsn + 1) ∧
      lm.flush.appendNewBlock.1.fm =
        fmWrite (fmWrite lm.fm lm.curBlock lm.logPage)
          lm.flush.appendNewBlock.2
          (Page.set_i32 lm.logPage 0 (lm.fm.blockSize : Int)) ∧
      lm.flush.appendNewBlock.1.logPage =
        Page.set_i32 lm.logPage 0 (lm.fm.blockSize : Int) ∧
      lm.flush.appendNewBlock.1.lastSavedLsn = lm.latestLsn ∧
      Page.get_i32 (logPlace lm.flush.appendNewBlock.1.logPage
          ((lm.fm.blockSize : Int) - logNeed record) record) 0 =
        (lm.fm.blockSize : Int) - logNeed record ∧
      Page.get_bytes (logPlace lm.flush.appendNewBlock.1.logPage
          ((lm.fm.blockSize : Int) - logNeed record) record)
          ((lm.fm.blockSize : Int) - logNeed record).toNat = record) := by
  have hbsI : (lm.fm.blockSize : Int) ≤ 2147483647 := by exact_mod_cast hbs
  have hfitI : (record.length : Int) + 2 * 4 ≤ (lm.fm.blockSize : Int) := by
    exact_mod_cast (by simpa [I32_SIZE] using hfit)
  have hI : (I32_SIZE : Int) = 4 := by norm_num [I32_SIZE]
  constructor
  · intro hge
    have hcond : ¬ (Page.get_i32 lm.logPage 0 -
        ((record.length : Int) + (I32_SIZE : Int)) < (I32_SIZE : Int)) := by
      unfold logNeed at hge; omega
    have hpos : ¬ (Page.get_i32 lm.logPage 0 -
        ((record.length : Int) + (I32_SIZE : Int)) < 0) := by
      unfold logNeed at hge; omega
    refine ⟨?_, ?_, ?_⟩
    · simp only [LogMgr.append, hcond, if_false, if_neg hpos]
      rfl
    · apply logPlace_boundary
      · unfold logNeed at hge ⊢; omega
      · unfold logNeed; omega
    · apply logPlace_record
      · exact hge
      · omega
  · intro hlt
    have hcond : (Page.get_i32 lm.logPage 0 -
        ((record.length : Int) + (I32_SIZE : Int)) < (I32_SIZE : Int)) := by
      unfold logNeed at hlt; omega
    have hfresh : Page.get_i32 lm.flush.appendNewBlock.1.logPage 0 =
        (lm.fm.blockSize : Int) := by
      show Page.get_i32 (Page.set_i32 lm.logPage 0 (lm.fm.blockSize : Int)) 0 = _
      exact get_i32_set_i32_self _ 0 _ (by positivity) (by omega)
    have hpos : ¬ ((lm.fm.blockSize : Int) -
        ((record.length : Int) + (I32_SIZE : Int)) < 0) := by omega
    refine ⟨?_, rfl, rfl, rfl, ?_, ?_⟩
    · simp only [LogMgr.append, hcond, if_true]
      rw [hfresh, if_neg hpos]
      rfl
    · apply logPlace_boundary
      · unfold logNeed; omega
      · unfold logNeed; omega
    · apply logPlace_record
      · unfold logNeed; omega
      · omega

/-- Witness for C5 on a fresh 16-byte-block log and the record `[9]`. -/
theorem log_append_spec_witness :
    ((I32_SIZE : Int) ≤
      Page.get_i32 (LogMgr.new (emptyFM 16) "L").logPage 0 - logNeed [9]) ∧
    Page.get_bytes (logPlace (LogMgr.new (emptyFM 16) "L").logPage
        (Page.get_i32 (LogMgr.new (emptyFM 16) "L").logPage 0 - logNeed [9]) [9])
        (Page.get_i32 (LogMgr.new (emptyFM 16) "L").logPage 0 -
          logNeed [9]).toNat = [9] :=
  ⟨by decide,
    (((log_append_spec (LogMgr.new (emptyFM 16) "L") [9] (by decide) (by decide)
      (by decide)).1 (by decide)).2.2)⟩

/-- C2 (counterexample to the claim): with records spanning two blocks,
the iterator yields only the newest block's record, not the full
reverse-append sequence — the block-switching branch in
`LogIterator::next` is unreachable behind the `cur_pos >= block_size`
early return. -/
theorem log_iterator_misses_older_blocks :
    c2run = [[5, 6, 7, 8]] ∧ c2run ≠ [[5, 6, 7, 8], [1, 2, 3, 4]] := by
  decide

/-- The public operations a caller can perform on a `LogManager` after
construction (`iterator()` flushes before building the iterator; the
iterator state itself does not touch the manager). -/
inductive LMOp where
| appendOp (record : List Nat)
| flushOp
| flushWithLsnOp (lsn : Int)
| iterOp

/-- One `LogManager` operation; `append` can panic (`none`) on an
oversized record, and is the only operation returning an LSN. -/
def LMstep (lm : LogMgr) : LMOp → Option (LogMgr × Option Int)
| .appendOp r => (LogMgr.append lm r).map fun s => (s.1, some s.2)
| .flushOp => some (lm.flush, none)
| .flushWithLsnOp l => some (lm.flushWithLsn l, none)
| .iterOp => some ((lm.iterator).1, none)

/-- Run a sequence of `LogManager` operations. -/
def LMrun (lm : LogMgr) : List LMOp → Option LogMgr
| [] => some lm
| op :: ops =>
  match LMstep lm op with
  | none => none
  | some s => LMrun s.1 ops

/-- Number of `append` operations in a sequence. -/
def countAppends : List LMOp → Int
| [] => 0
| LMOp.appendOp _ :: ops => countAppends ops + 1
| LMOp.flushOp :: ops => countAppends ops
| LMOp.flushWithLsnOp _ :: ops => countAppends ops
| LMOp.iterOp :: ops => countAppends ops

theorem flush_latestLsn (lm : LogMgr) : lm.flush.latestLsn = lm.latestLsn := rfl

theorem flush_lastSavedLsn (lm : LogMgr) :
    lm.flush.lastSavedLsn = lm.latestLsn := rfl

theorem iterator_fst (lm : LogMgr) : lm.iterator.1 = lm.flush := rfl

theorem append_counters (lm : LogMgr) (record : List Nat) (lm' : LogMgr)
    (lsn : Int) (h : LogMgr.append lm record = some (lm', lsn)) :
    lm'.latestLsn = lm.latestLsn + 1 ∧ lsn = lm.latestLsn + 1 ∧
    (lm'.lastSavedLsn = lm.lastSavedLsn ∨ lm'.lastSavedLsn = lm.latestLsn) := by
  unfold LogMgr.append at h
  by_cases hc : (Page.get_i32 lm.logPage 0 -
      ((record.length : Int) + (I32_SIZE : Int)) < (I32_SIZE : Int))
  · simp only [hc, if_true] at h
    split at h
    · exact absurd h (by simp)
    · simp only [Option.some.injEq, Prod.mk.injEq] at h
      obtain ⟨h1, h2⟩ := h
      subst h1
      refine ⟨rfl, ?_, Or.inr rfl⟩
      rw [← h2]
      rfl
  · simp only [hc, if_false] at h
    split at h
    · exact absurd h (by simp)
    · simp only [Option.some.injEq, Prod.mk.injEq] at h
      obtain ⟨h1, h2⟩ := h
      subst h1
      exact ⟨rfl, h2.symm, Or.inl rfl⟩

/-- The LSN-counter invariant of claim C6. -/
def LMinv (lm : LogMgr) : Prop :=
0 ≤ lm.lastSavedLsn ∧ lm.lastSavedLsn ≤ lm.latestLsn

theorem LMstep_counters (lm : LogMgr) (op : LMOp) (lm' : LogMgr)
    (r : Option Int) (hinv : LMinv lm) (h : LMstep lm op = some (lm', r)) :
    LMinv lm' ∧ lm.latestLsn ≤ lm'.latestLsn ∧
    lm.lastSavedLsn ≤ lm'.lastSavedLsn ∧
    (∀ rec, op = .appendOp rec →
      r = some (lm.latestLsn + 1) ∧ lm'.latestLsn = lm.latestLsn + 1) ∧
    ((∀ rec, op ≠ .appendOp rec) → lm'.latestLsn = lm.latestLsn) := by
  obtain ⟨hinv0, hinv1⟩ := hinv
  cases op with
  | appendOp rec =>
    simp only [LMstep] at h
    cases happ : LogMgr.append lm rec with
    | none =>
      rw [happ] at h
      exact absurd h (by simp)
    | some s =>
      rw [happ] at h
      simp only [Option.map_some', Option.some.injEq, Prod.mk.injEq] at h
      obtain ⟨h1, h2⟩ := h
      obtain ⟨ha1, ha2, ha3⟩ := append_counters lm rec s.1 s.2 happ
      subst h1
      refine ⟨⟨?_, ?_⟩, ?_, ?_, ?_, ?_⟩
      · rcases ha3 with h3 | h3 <;> omega
      · rcases ha3 with h3 | h3 <;> omega
      · omega
      · rcases ha3 with h3 | h3 <;> omega
      · intro rec' hop
        refine ⟨?_, by omega⟩
        rw [← h2, ha2]
      · intro hne
        exact absurd rfl (hne rec)
  | flushOp =>
    simp only [LMstep, Option.some.injEq, Prod.mk.injEq] at h
    obtain ⟨h1, _⟩ := h
    subst h1
    have e1 : lm.flush.latestLsn = lm.latestLsn := rfl
    have e2 : lm.flush.lastSavedLsn = lm.latestLsn := rfl
    refine ⟨⟨by omega, by omega⟩, by omega, by omega, ?_, fun _ => by omega⟩
    intro rec hop
    exact absurd hop (by simp)
  | flushWithLsnOp l =>
    simp only [LMstep, Option.some.injEq, Prod.mk.injEq] at h
    obtain ⟨h1, _⟩ := h
    subst h1
    have f1 : (lm.flushWithLsn l).latestLsn = lm.latestLsn := by
      unfold LogMgr.flushWithLsn
      split <;> rfl
    have f2 : (lm.flushWithLsn l).lastSavedLsn = lm.lastSavedLsn ∨
        (lm.flushWithLsn l).lastSavedLsn = lm.latestLsn := by
      unfold LogMgr.flushWithLsn
      split
      · exact Or.inr rfl
      · exact Or.inl rfl
    refine ⟨⟨?_, ?_⟩, by omega, ?_, ?_, fun _ => by omega⟩
    · rcases f2 with h2 | h2 <;> omega
    · rcases f2 with h2 | h2 <;> omega
    · rcases f2 with h2 | h2 <;> omega
    · intro rec hop
      exact absurd hop (by simp)
  | iterOp =>
    simp only [LMstep, Option.some.injEq, Prod.mk.injEq] at h
    obtain ⟨h1, _⟩ := h
    subst h1
    have e1 : lm.iterator.1.latestLsn = lm.latestLsn := rfl
    have e2 : lm.iterator.1.lastSavedLsn = lm.latestLsn := rfl
    refine ⟨⟨by omega, by omega⟩, by omega, by omega, ?_, fun _ => by omega⟩
    intro rec hop
    exact absurd hop (by simp)

theorem LMrun_counters (ops : List LMOp) (lm lm' : LogMgr) (hinv : LMinv lm)
    (h : LMrun lm ops = some lm') :
    LMinv lm' ∧ lm.latestLsn ≤ lm'.latestLsn ∧
    lm.lastSavedLsn ≤ lm'.lastSavedLsn ∧
    lm'.latestLsn = lm.latestLsn + countAppends ops := by
  induction ops generalizing lm with
  | nil =>
    simp only [LMrun, Option.some.injEq] at h
    subst h
    exact ⟨hinv, le_refl _, le_refl _, by simp [countAppends]⟩
  | cons op ops ih =>
    unfold LMrun at h
    cases hstep : LMstep lm op with
    | none =>
      rw [hstep] at h
      exact absurd h (by simp)
    | some s =>
      rw [hstep] at h
      obtain ⟨hinv1, hlat, hsaved, happ, hnotapp⟩ :=
        LMstep_counters lm op s.1 s.2 hinv hstep
      obtain ⟨hinv2, hlat2, hsaved2, hcount⟩ := ih s.1 hinv1 h
      refine ⟨hinv2, by omega, by omega, ?_⟩
      cases op with
      | appendOp rec =>
        have he := (happ rec rfl).2
        simp only [countAppends]
        omega
      | flushOp =>
        have he := hnotapp (by intro rec h; exact LMOp.noConfusion h)
        simp only [countAppends]
        omega
      | flushWithLsnOp l =>
        have he := hnotapp (by intro rec h; exact LMOp.noConfusion h)
        simp only [countAppends]
        omega
      | iterOp =>
        have he := hnotapp (by intro rec h; exact LMOp.noConfusion h)
        simp only [countAppends]
        omega

theorem LogMgr_new_counters (fm0 : FM) (name : String) :
    (LogMgr.new fm0 name).latestLsn = 0 ∧
    (LogMgr.new fm0 name).lastSavedLsn = 0 := by
  unfold LogMgr.new
  split <;> exact ⟨rfl, rfl⟩

/-- C6: across every successfully completed sequence of operations from
construction, `last_saved_lsn` stays between 0 and `latest_lsn`;
`latest_lsn` counts exactly the appends performed (so the returned LSNs
are 1, 2, 3, …); a further `append` returns exactly `latest_lsn + 1`;
and both counters are monotone along every step. -/
theorem log_lsn_monotone (fm0 : FM) (name : String) (ops : List LMOp)
    (lm' : LogMgr) (h : LMrun (LogMgr.new fm0 name) ops = some lm') :
    (0 ≤ lm'.lastSavedLsn ∧ lm'.lastSavedLsn ≤ lm'.latestLsn) ∧
    lm'.latestLsn = countAppends ops ∧
    (∀ rec lm2 lsn, LMstep lm' (.appendOp rec) = some (lm2, some lsn) →
      lsn = lm'.latestLsn + 1 ∧ lm2.latestLsn = lm'.latestLsn + 1) ∧
    (∀ op lm2 r2, LMstep lm' op = some (lm2, r2) →
      lm'.latestLsn ≤ lm2.latestLsn ∧ lm'.lastSavedLsn ≤ lm2.lastSavedLsn) := by
  obtain ⟨hn1, hn2⟩ := LogMgr_new_counters fm0 name
  have hinv0 : LMinv (LogMgr.new fm0 name) := ⟨by omega, by omega⟩
  obtain ⟨hinv, _, _, hcount⟩ := LMrun_counters ops _ lm' hinv0 h
  refine ⟨hinv, by omega, ?_, ?_⟩
  · intro rec lm2 lsn hstep
    obtain ⟨_, _, _, happ, _⟩ := LMstep_counters lm' _ lm2 (some lsn) hinv hstep
    obtain ⟨h1, h2⟩ := happ rec rfl
    exact ⟨Option.some.inj h1, h2⟩
  · intro op lm2 r2 hstep
    obtain ⟨_, hl, hs, _, _⟩ := LMstep_counters lm' op lm2 r2 hinv hstep
    exact ⟨hl, hs⟩

/-- The `LogManager` state after one append and one flush on a fresh
16-byte-block log (used to witness C6 concretely). -/
def lmAfterRun : LogMgr :=
match LMrun (LogMgr.new (emptyFM 16) "L") [LMOp.appendOp [9], LMOp.flushOp] with
| some lm => lm
| none => LogMgr.new (emptyFM 16) "L"

/-- Witness for C6 on a concrete two-operation run. -/
theorem log_lsn_monotone_witness :
    (0 ≤ lmAfterRun.lastSavedLsn ∧
      lmAfterRun.lastSavedLsn ≤ lmAfterRun.latestLsn) ∧
    lmAfterRun.latestLsn = countAppends [LMOp.appendOp [9], LMOp.flushOp] :=
  let h := log_lsn_monotone (emptyFM 16) "L" [LMOp.appendOp [9], LMOp.flushOp]
    lmAfterRun rfl
  ⟨h.1, h.2.1⟩

/-- The externally visible I/O actions a buffer frame performs, in
order: forcing the log up to an LSN (`log_manager.flush_with_lsn`),
writing the frame's page to disk (`file_manager.write`), and reading a
block into the frame (`file_manager.read`). -/
inductive BufEvent where
| logFlush (lsn : Int)
| pageWrite (blk : BlockId)
| pageRead (blk : BlockId)
deriving DecidableEq, Repr

/-- A buffer frame from src/buffer.rs: the metadata of `Buffer` (the
page bytes play no role in any claim and are carried by the event
trace's read/write actions). -/
structure Buffer where
  block : Option BlockId
  pins : Nat
  txnum : Int
  lsn : Int
deriving DecidableEq, Repr

/-- Model of `Buffer::new`: empty frame, clean (`txnum = -1`), no LSN. -/
def Buffer.new : Buffer :=
{ block := none, pins := 0, txnum := -1, lsn := -1 }

/-- Model of `Buffer::set_modified`: record the transaction, and the LSN only when
non-negative. -/
def Buffer.setModified (b : Buffer) (txnum lsn : Int) : Buffer :=
{ b with txnum := txnum, lsn := if 0 ≤ lsn then lsn else b.lsn }

/-- Model of `Buffer::is_pinned`: `pins > 0`. -/
def Buffer.isPinned (b : Buffer) : Bool := decide (0 < b.pins)

/-- Model of `Buffer::modifying_tx`. -/
def Buffer.modifyingTx (b : Buffer) : Int := b.txnum

/-- Model of `Buffer::flush`: when dirty (`txnum >= 0`), first force the log up to
the frame's LSN, then — if a block is held — write the page and
decrement `txnum`.  The returned list is the I/O trace in order. -/
def Buffer.flush (b : Buffer) : Buffer × List BufEvent :=
if 0 ≤ b.txnum then
  match b.block with
  | some blk =>
    ({ b with txnum := b.txnum - 1 },
      [BufEvent.logFlush b.lsn, BufEvent.pageWrite blk])
  | none => (b, [BufEvent.logFlush b.lsn])
else (b, [])

/-- Model of `Buffer::assign_to_block`: flush, read the new block into the frame,
record it, reset the pin count. -/
def Buffer.assignToBlock (b : Buffer) (blk : BlockId) : Buffer × List BufEvent :=
let f := b.flush
({ f.1 with block := some blk, pins := 0 }, f.2 ++ [BufEvent.pageRead blk])

/-- Model of `Buffer::pin`. -/
def Buffer.pin (b : Buffer) : Buffer := { b with pins := b.pins + 1 }

/-- Model of `Buffer::unpin`: `self.pins -= 1` on a `u64`, which panics (under the
debug assertions the tests run with) when `pins` is already 0. -/
def Buffer.unpin (b : Buffer) : Option Buffer :=
if b.pins = 0 then none else some { b with pins := b.pins - 1 }

/-- Model of `BufferManager` state from src/buffer.rs. -/
structure BufferMgr where
  bufferPool : List Buffer
  numAvailable : Nat
deriving DecidableEq, Repr

/-- Model of `BufferManager::new`. -/
def BufferMgr.new (numBuffs : Nat) : BufferMgr :=
{ bufferPool := List.replicate numBuffs Buffer.new, numAvailable := numBuffs }

/-- Index of the first buffer satisfying the predicate
(`.iter().find(..)` in the source). -/
def findIdxP (p : Buffer → Bool) : List Buffer → Option Nat
| [] => none
| b :: rest => if p b then some 0 else (findIdxP p rest).map (fun i => i + 1)

/-- Model of `BufferManager::find_existing_buffer`. -/
def findExistingBuffer (pool : List Buffer) (blk : BlockId) : Option Nat :=
findIdxP (fun b => decide (b.block = some blk)) pool

/-- Model of `BufferManager::choose_unpinned_buffer`. -/
def chooseUnpinnedBuffer (pool : List Buffer) : Option Nat :=
findIdxP (fun b => !b.isPinned) pool

/-- Model of `BufferManager::try_to_pin`: reuse an existing frame for the block,
or claim the first unpinned frame and `assign_to_block` it; decrement
`num_available` when the chosen frame was unpinned; pin it. -/
def BufferMgr.tryToPin (bm : BufferMgr) (blk : BlockId) :
    Option (BufferMgr × Nat) :=
match findExistingBuffer bm.bufferPool blk with
| some i =>
  let b := bm.bufferPool.getD i Buffer.new
  let av := if b.isPinned then bm.numAvailable else bm.numAvailable - 1
  some ({ bufferPool := bm.bufferPool.set i b.pin, numAvailable := av }, i)
| none =>
  match chooseUnpinnedBuffer bm.bufferPool with
  | some i =>
    let b := bm.bufferPool.getD i Buffer.new
    let b1 := (b.assignToBlock blk).1
    let av := if b1.isPinned then bm.numAvailable else bm.numAvailable - 1
    some ({ bufferPool := bm.bufferPool.set i b1.pin, numAvailable := av }, i)
  | none => none

/-- Model of `BufferManager::unpin` on the frame at index `i`: frame `unpin`
(which can panic), then increment `num_available` if the frame is no
longer pinned. -/
def BufferMgr.unpin (bm : BufferMgr) (i : Nat) : Option BufferMgr :=
match bm.bufferPool[i]? with
| none => none
| some b =>
  match b.unpin with
  | none => none
  | some b1 =>
    let av := if b1.isPinned then bm.numAvailable else bm.numAvailable + 1
    some { bufferPool := bm.bufferPool.set i b1, numAvailable := av }

/-- Pool traversal of `BufferManager::flush_all`: flush every frame whose
modifying transaction matches, collecting the I/O traces in order. -/
def flushAllGo (txnum : Int) : List Buffer → List Buffer × List BufEvent
| [] => ([], [])
| b :: rest =>
  let f := if b.modifyingTx = txnum then b.flush else (b, [])
  let r := flushAllGo txnum rest
  (f.1 :: r.1, f.2 ++ r.2)

/-- Model of `BufferManager::flush_all`. -/
def BufferMgr.flushAll (bm : BufferMgr) (txnum : Int) :
    BufferMgr × List BufEvent :=
let r := flushAllGo txnum bm.bufferPool
({ bm with bufferPool := r.1 }, r.2)

/-- Completed `BufferManager` operations (a `pin` whose retry loop times
out returns an error with the state unchanged). -/
inductive BMOp where
| pinOp (blk : BlockId)
| unpinOp (i : Nat)
| flushAllOp (txnum : Int)

/-- One `BufferManager` operation; `unpin` on an unpinned frame (or a bad
index) panics, i.e. `none`. -/
def BMstep (bm : BufferMgr) : BMOp → Option BufferMgr
| .pinOp blk =>
  match bm.tryToPin blk with
  | some s => some s.1
  | none => some bm
| .unpinOp i => bm.unpin i
| .flushAllOp t => some (bm.flushAll t).1

/-- Run a sequence of `BufferManager` operations. -/
def BMrun (bm : BufferMgr) : List BMOp → Option BufferMgr
| [] => some bm
| op :: ops =>
  match BMstep bm op with
  | none => none
  | some bm1 => BMrun bm1 ops

/-- The claim C7 invariant: `num_available` equals the number of frames
with pin count zero. -/
def BMinv (bm : BufferMgr) : Prop :=
bm.numAvailable = List.countP (fun b => b.pins == 0) bm.bufferPool

theorem countP_set (p : Buffer → Bool) (l : List Buffer) (i : Nat) (x : Buffer)
    (h : i < l.length) :
    List.countP p (l.set i x) + (if p (l.getD i Buffer.new) then 1 else 0) =
    List.countP p l + (if p x then 1 else 0) := by
  induction l generalizing i with
  | nil => simp at h
  | cons a rest ih =>
    cases i with
    | zero =>
      simp only [List.set_cons_zero, List.getD_cons_zero, List.countP_cons]
      omega
    | succ j =>
      have hj : j < rest.length := by simpa using h
      have ihj := ih j hj
      simp only [List.set_cons_succ, List.getD_cons_succ, List.countP_cons]
      omega

theorem countP_pos_of_getD (p : Buffer → Bool) (l : List Buffer) (i : Nat)
    (h : i < l.length) (hp : p (l.getD i Buffer.new) = true) :
    0 < List.countP p l := by
  induction l generalizing i with
  | nil => simp at h
  | cons a rest ih =>
    cases i with
    | zero =>
      simp only [List.getD_cons_zero] at hp
      simp only [List.countP_cons, hp, if_true]
      omega
    | succ j =>
      have hj : j < rest.length := by simpa using h
      simp only [List.getD_cons_succ] at hp
      have hr := ih j hj hp
      simp only [List.countP_cons]
      omega

theorem findIdxP_lt (p : Buffer → Bool) (l : List Buffer) (i : Nat)
    (h : findIdxP p l = some i) : i < l.length := by
  induction l generalizing i with
  | nil => simp [findIdxP] at h
  | cons b rest ih =>
    unfold findIdxP at h
    by_cases hp : p b
    · rw [if_pos hp] at h
      simp only [Option.some.injEq] at h
      simp [← h]
    · rw [if_neg hp] at h
      cases hrest : findIdxP p rest with
      | none =>
        rw [hrest] at h
        exact absurd h (by simp)
      | some j =>
        rw [hrest] at h
        simp only [Option.map_some', Option.some.injEq] at h
        have hj := ih j hrest
        simp only [List.length_cons]
        omega

theorem findIdxP_pred (p : Buffer → Bool) (l : List Buffer) (i : Nat)
    (h : findIdxP p l = some i) : p (l.getD i Buffer.new) = true := by
  induction l generalizing i with
  | nil => simp [findIdxP] at h
  | cons b rest ih =>
    unfold findIdxP at h
    by_cases hp : p b
    · rw [if_pos hp] at h
      simp only [Option.some.injEq] at h
      rw [← h, List.getD_cons_zero]
      exact hp
    · rw [if_neg hp] at h
      cases hrest : findIdxP p rest with
      | none =>
        rw [hrest] at h
        exact absurd h (by simp)
      | some j =>
        rw [hrest] at h
        simp only [Option.map_some', Option.some.injEq] at h
        rw [← h, List.getD_cons_succ]
        exact ih j hrest

theorem assignToBlock_pins (b : Buffer) (blk : BlockId) :
    (b.assignToBlock blk).1.pins = 0 := rfl

theorem flush_pins (b : Buffer) : b.flush.1.pins = b.pins := by
  unfold Buffer.flush
  split
  · cases hb : b.block <;> simp
  · rfl

theorem pin_pins (b : Buffer) : b.pin.pins = b.pins + 1 := rfl

theorem isPinned_iff (b : Buffer) : b.isPinned = true ↔ 0 < b.pins := by
  simp [Buffer.isPinned]

theorem beq_zero_iff (n : Nat) : ((n == 0) = true) ↔ n = 0 := by
  simp

theorem tryToPin_inv (bm : BufferMgr) (blk : BlockId) (s : BufferMgr × Nat)
    (hinv : BMinv bm) (h : bm.tryToPin blk = some s) : BMinv s.1 := by
  unfold BMinv at hinv
  unfold BufferMgr.tryToPin at h
  cases hfind : findExistingBuffer bm.bufferPool blk with
  | some i =>
    rw [hfind] at h
    simp only [Option.some.injEq] at h
    have hlt := findIdxP_lt _ _ _ hfind
    have hcnt := countP_set (fun b => b.pins == 0) bm.bufferPool i
      (bm.bufferPool.getD i Buffer.new).pin hlt
    have hnew : ¬ ((((bm.bufferPool.getD i Buffer.new).pin.pins == 0)) = true) := by
      rw [beq_zero_iff, pin_pins]
      omega
    rw [if_neg hnew] at hcnt
    subst h
    show (if (bm.bufferPool.getD i Buffer.new).isPinned then bm.numAvailable
        else bm.numAvailable - 1) =
      List.countP (fun b => b.pins == 0)
        (bm.bufferPool.set i (bm.bufferPool.getD i Buffer.new).pin)
    by_cases hp : (bm.bufferPool.getD i Buffer.new).isPinned
    · have h0 : ¬ ((((bm.bufferPool.getD i Buffer.new).pins == 0)) = true) := by
        rw [isPinned_iff] at hp
        rw [beq_zero_iff]
        omega
      rw [if_pos hp]
      rw [if_neg h0] at hcnt
      omega
    · have h0 : (((bm.bufferPool.getD i Buffer.new).pins == 0)) = true := by
        rw [isPinned_iff] at hp
        rw [beq_zero_iff]
        omega
      have hpos := countP_pos_of_getD (fun b => b.pins == 0) bm.bufferPool i hlt h0
      rw [if_neg hp]
      rw [if_pos h0] at hcnt
      omega
  | none =>
    rw [hfind] at h
    cases hch : chooseUnpinnedBuffer bm.bufferPool with
    | some i =>
      rw [hch] at h
      simp only [Option.some.injEq] at h
      have hlt := findIdxP_lt _ _ _ hch
      have hup := findIdxP_pred _ _ _ hch
      have h0 : (((bm.bufferPool.getD i Buffer.new).pins == 0)) = true := by
        have hx : ¬ (0 < (bm.bufferPool.getD i Buffer.new).pins) := by
          simpa [Buffer.isPinned] using hup
        rw [beq_zero_iff]
        omega
      have hpos := countP_pos_of_getD (fun b => b.pins == 0) bm.bufferPool i hlt h0
      have hcnt := countP_set (fun b => b.pins == 0) bm.bufferPool i
        ((bm.bufferPool.getD i Buffer.new).assignToBlock blk).1.pin hlt
      have hnew : ¬ (((((bm.bufferPool.getD i Buffer.new).assignToBlock blk).1.pin.pins == 0)) = true) := by
        rw [beq_zero_iff, pin_pins, assignToBlock_pins]
        omega
      have hp1 : ¬ ((((bm.bufferPool.getD i Buffer.new).assignToBlock blk).1.isPinned) = true) := by
        simp only [isPinned_iff, assignToBlock_pins]
        omega
      rw [if_neg hnew, if_pos h0] at hcnt
      subst h
      show (if ((bm.bufferPool.getD i Buffer.new).assignToBlock blk).1.isPinned
          then bm.numAvailable else bm.numAvailable - 1) =
        List.countP (fun b => b.pins == 0)
          (bm.bufferPool.set i
            ((bm.bufferPool.getD i Buffer.new).assignToBlock blk).1.pin)
      rw [if_neg hp1]
      omega
    | none =>
      rw [hch] at h
      exact absurd h (by simp)

theorem unpin_inv (bm : BufferMgr) (i : Nat) (bm' : BufferMgr)
    (hinv : BMinv bm) (h : bm.unpin i = some bm') : BMinv bm' := by
  unfold BMinv at hinv
  unfold BufferMgr.unpin at h
  cases hget : bm.bufferPool[i]? with
  | none =>
    rw [hget] at h
    exact absurd h (by simp)
  | some b =>
    rw [hget] at h
    dsimp only at h
    unfold Buffer.unpin at h
    by_cases hp : b.pins = 0
    · rw [if_pos hp] at h
      exact absurd h (by simp)
    · rw [if_neg hp] at h
      dsimp only at h
      simp only [Option.some.injEq] at h
      have hlt : i < bm.bufferPool.length := (List.getElem?_eq_some.mp hget).1
      have hgd : bm.bufferPool.getD i Buffer.new = b := by
        rw [List.getD_eq_getElem _ _ hlt]
        exact (List.getElem?_eq_some.mp hget).2
      have hcnt := countP_set (fun b => b.pins == 0) bm.bufferPool i
        { b with pins := b.pins - 1 } hlt
      rw [hgd] at hcnt
      have hold : ¬ ((b.pins == 0) = true) := by
        rw [beq_zero_iff]
        omega
      rw [if_neg hold] at hcnt
      subst h
      show (if Buffer.isPinned { b with pins := b.pins - 1 } then
          bm.numAvailable else bm.numAvailable + 1) =
        List.countP (fun b => b.pins == 0)
          (bm.bufferPool.set i { b with pins := b.pins - 1 })
      by_cases h1 : b.pins = 1
      · have e1 : ¬ (Buffer.isPinned { b with pins := b.pins - 1 } = true) := by
          simp only [isPinned_iff]
          omega
        have e2 : ((({ b with pins := b.pins - 1 } : Buffer).pins == 0)) = true := by
          rw [beq_zero_iff]
          show b.pins - 1 = 0
          omega
        rw [if_neg e1]
        rw [if_pos e2] at hcnt
        omega
      · have e1 : Buffer.isPinned { b with pins := b.pins - 1 } = true := by
          simp only [isPinned_iff]
          omega
        have e2 : ¬ (((({ b with pins := b.pins - 1 } : Buffer).pins == 0)) = true) := by
          rw [beq_zero_iff]
          show ¬ b.pins - 1 = 0
          omega
        rw [if_pos e1]
        rw [if_neg e2] at hcnt
        omega

theorem flushAllGo_countP (t : Int) (l : List Buffer) :
    List.countP (fun b => b.pins == 0) (flushAllGo t l).1 =
    List.countP (fun b => b.pins == 0) l := by
  induction l with
  | nil => rfl
  | cons b rest ih =>
    simp only [flushAllGo, List.countP_cons, ih]
    by_cases hb : b.modifyingTx = t
    · simp only [hb, if_true]
      rw [flush_pins]
    · simp only [hb, if_false]

theorem BMstep_inv (bm : BufferMgr) (op : BMOp) (bm' : BufferMgr)
    (hinv : BMinv bm) (h : BMstep bm op = some bm') : BMinv bm' := by
  cases op with
  | pinOp blk =>
    simp only [BMstep] at h
    cases htp : bm.tryToPin blk with
    | some s =>
      rw [htp] at h
      simp only [Option.some.injEq] at h
      subst h
      exact tryToPin_inv bm blk s hinv htp
    | none =>
      rw [htp] at h
      simp only [Option.some.injEq] at h
      subst h
      exact hinv
  | unpinOp i =>
    exact unpin_inv bm i bm' hinv h
  | flushAllOp t =>
    simp only [BMstep, Option.some.injEq] at h
    subst h
    unfold BMinv BufferMgr.flushAll
    rw [flushAllGo_countP]
    exact hinv

theorem BMrun_inv (ops : List BMOp) (bm bm' : BufferMgr) (hinv : BMinv bm)
    (h : BMrun bm ops = some bm') : BMinv bm' := by
  induction ops generalizing bm with
  | nil =>
    simp only [BMrun, Option.some.injEq] at h
    subst h
    exact hinv
  | cons op ops ih =>
    unfold BMrun at h
    cases hstep : BMstep bm op with
    | none =>
      rw [hstep] at h
      exact absurd h (by simp)
    | some bm1 =>
      rw [hstep] at h
      exact ih bm1 (BMstep_inv bm op bm1 hinv hstep) h

theorem BMinv_new (n : Nat) : BMinv (BufferMgr.new n) := by
  unfold BMinv BufferMgr.new
  induction n with
  | zero => rfl
  | succ m ih =>
    simp only [List.replicate, List.countP_cons] at ih ⊢
    rw [← ih]
    simp [Buffer.new]

/-- C7: after every successfully completed sequence of `BufferManager`
operations from construction, `available()` equals the number of frames
in the pool whose pin count is zero (the run succeeding encodes the
assumption that `unpin` is only invoked on currently pinned frames). -/
theorem buffer_available_counts_unpinned (n : Nat) (ops : List BMOp)
    (bm' : BufferMgr) (h : BMrun (BufferMgr.new n) ops = some bm') :
    bm'.numAvailable = List.countP (fun b => b.pins == 0) bm'.bufferPool :=
  BMrun_inv ops (BufferMgr.new n) bm' (BMinv_new n) h

/-- The pool state after a pin and an unpin on a two-frame pool (used to
witness C7 concretely). -/
def bmAfterRun : BufferMgr :=
match BMrun (BufferMgr.new 2) [BMOp.pinOp ⟨"t", 0⟩, BMOp.unpinOp 0,
    BMOp.pinOp ⟨"u", 1⟩, BMOp.flushAllOp 1] with
| some bm => bm
| none => BufferMgr.new 2

/-- Witness for C7 on a concrete four-operation run. -/
theorem buffer_available_counts_unpinned_witness :
    bmAfterRun.numAvailable =
      List.countP (fun b => b.pins == 0) bmAfterRun.bufferPool :=
  buffer_available_counts_unpinned 2 [BMOp.pinOp ⟨"t", 0⟩, BMOp.unpinOp 0,
    BMOp.pinOp ⟨"u", 1⟩, BMOp.flushAllOp 1] bmAfterRun rfl

/-- Predicate holding iff every page write in the trace is immediately
preceded by a log flush. -/
def walSegs : List BufEvent → Bool
| [] => true
| BufEvent.logFlush _ :: BufEvent.pageWrite _ :: rest => walSegs rest
| BufEvent.logFlush _ :: BufEvent.logFlush l :: rest =>
  walSegs (BufEvent.logFlush l :: rest)
| BufEvent.logFlush _ :: BufEvent.pageRead r :: rest =>
  walSegs (BufEvent.pageRead r :: rest)
| BufEvent.logFlush _ :: [] => true
| BufEvent.pageWrite _ :: _ => false
| BufEvent.pageRead _ :: rest => walSegs rest

theorem flush_trace_dirty (b : Buffer) (blk : BlockId) (htx : 0 ≤ b.txnum)
    (hblk : b.block = some blk) :
    b.flush.2 = [BufEvent.logFlush b.lsn, BufEvent.pageWrite blk] := by
  unfold Buffer.flush
  rw [if_pos htx, hblk]

theorem flush_trace_no_block (b : Buffer) (htx : 0 ≤ b.txnum)
    (hblk : b.block = none) : b.flush.2 = [BufEvent.logFlush b.lsn] := by
  unfold Buffer.flush
  rw [if_pos htx, hblk]

theorem flush_trace_clean (b : Buffer) (htx : ¬ 0 ≤ b.txnum) :
    b.flush.2 = [] := by
  unfold Buffer.flush
  rw [if_neg htx]

theorem walSegs_flush_append (b : Buffer) (rest : List BufEvent)
    (h : walSegs rest = true) : walSegs (b.flush.2 ++ rest) = true := by
  by_cases htx : 0 ≤ b.txnum
  · cases hblk : b.block with
    | some blk =>
      rw [flush_trace_dirty b blk htx hblk]
      simpa [walSegs] using h
    | none =>
      rw [flush_trace_no_block b htx hblk]
      cases rest with
      | nil => rfl
      | cons e rest2 =>
        cases e with
        | logFlush l => simpa [walSegs] using h
        | pageWrite w => simp [walSegs] at h
        | pageRead r => simpa [walSegs] using h
  · rw [flush_trace_clean b htx]
    simpa using h

theorem walSegs_flushAllGo (t : Int) (l : List Buffer) :
    walSegs (flushAllGo t l).2 = true := by
  induction l with
  | nil => rfl
  | cons b rest ih =>
    show walSegs ((if b.modifyingTx = t then b.flush else (b, [])).2 ++
      (flushAllGo t rest).2) = true
    by_cases hb : b.modifyingTx = t
    · rw [if_pos hb]
      exact walSegs_flush_append b _ ih
    · rw [if_neg hb]
      simpa using ih

/-- C1: a dirty frame holding a block first forces the log up to its
recorded LSN and only then writes its page: the flush trace is exactly
`[logFlush lsn, pageWrite blk]`; an eviction (`assign_to_block`) performs
that same prefix before reading the new block; and in a `flush_all`
trace every page write is immediately preceded by its log flush. -/
theorem wal_flush_before_page_write :
    (∀ (b : Buffer) (blk : BlockId), 0 ≤ b.txnum → b.block = some blk →
      b.flush.2 = [BufEvent.logFlush b.lsn, BufEvent.pageWrite blk]) ∧
    (∀ (b : Buffer) (newBlk oldBlk : BlockId), 0 ≤ b.txnum →
      b.block = some oldBlk →
      (b.assignToBlock newBlk).2 = [BufEvent.logFlush b.lsn,
        BufEvent.pageWrite oldBlk, BufEvent.pageRead newBlk]) ∧
    (∀ (t : Int) (l : List Buffer), walSegs (flushAllGo t l).2 = true) := by
  refine ⟨flush_trace_dirty, ?_, walSegs_flushAllGo⟩
  intro b newBlk oldBlk htx hblk
  show b.flush.2 ++ [BufEvent.pageRead newBlk] = _
  rw [flush_trace_dirty b oldBlk htx hblk]
  rfl

/-- A dirty pinned frame holding block `("f", 0)` at LSN 3. -/
def bufC1 : Buffer := { block := some ⟨"f", 0⟩, pins := 1, txnum := 7, lsn := 3 }

/-- Witness for C1 at a concrete dirty frame. -/
theorem wal_flush_before_page_write_witness :
    ((0 : Int) ≤ bufC1.txnum ∧ bufC1.block = some ⟨"f", 0⟩) ∧
    bufC1.flush.2 =
      [BufEvent.logFlush bufC1.lsn, BufEvent.pageWrite ⟨"f", 0⟩] :=
  ⟨⟨by decide, rfl⟩,
    wal_flush_before_page_write.1 bufC1 ⟨"f", 0⟩ (by decide) rfl⟩

/-- A dirty frame holding block `("g", 1)` modified by transaction 5. -/
def bufC8 : Buffer := { block := some ⟨"g", 1⟩, pins := 0, txnum := 5, lsn := 2 }

/-- C8 (counterexample to the claim): flushing a dirty frame decrements
`txnum` (5 becomes 4) instead of clearing it to -1, so the frame is not
marked clean after a successful flush. -/
theorem buffer_flush_txnum_decrement :
    bufC8.flush.1.txnum = 4 ∧ ¬ bufC8.flush.1.txnum = -1 := by
  decide

/-- C10: `BufferManager::unpin` on a frame whose pin count is zero hits
the unsigned underflow panic in `pins -= 1` (`none` here); on a pinned
frame the decrement and the `num_available` update are well defined:
`num_available` grows by one exactly when the pin count reaches zero. -/
theorem bm_unpin_requires_pinned (bm : BufferMgr) (i : Nat) (b : Buffer)
    (hb : bm.bufferPool[i]? = some b) :
    (b.pins = 0 → bm.unpin i = none) ∧
    (0 < b.pins → bm.unpin i =
      some { bufferPool := bm.bufferPool.set i { b with pins := b.pins - 1 },
             numAvailable := if b.pins = 1 then bm.numAvailable + 1
               else bm.numAvailable }) := by
  constructor
  · intro h0
    unfold BufferMgr.unpin
    rw [hb]
    dsimp only
    unfold Buffer.unpin
    rw [if_pos h0]
  · intro hpos
    unfold BufferMgr.unpin
    rw [hb]
    dsimp only
    unfold Buffer.unpin
    rw [if_neg (by omega)]
    dsimp only
    by_cases h1 : b.pins = 1
    · rw [if_pos h1]
      have hnp : ¬ (Buffer.isPinned { b with pins := b.pins - 1 } = true) := by
        simp only [isPinned_iff]
        omega
      rw [if_neg hnp]
    · rw [if_neg h1]
      have hp2 : Buffer.isPinned { b with pins := b.pins - 1 } = true := by
        simp only [isPinned_iff]
        omega
      rw [if_pos hp2]

/-- A two-frame pool: frame 0 unpinned, frame 1 pinned twice. -/
def bmC10 : BufferMgr :=
{ bufferPool := [Buffer.new, { Buffer.new with pins := 2 }],
  numAvailable := 1 }

/-- Witness for C10: unpinning the unpinned frame 0 panics; unpinning the
twice-pinned frame 1 succeeds and leaves `num_available` unchanged. -/
theorem bm_unpin_requires_pinned_witness :
    bmC10.unpin 0 = none ∧
    bmC10.unpin 1 = some
      { bufferPool := bmC10.bufferPool.set 1 { Buffer.new with pins := 1 },
        numAvailable := bmC10.numAvailable } :=
  ⟨(bm_unpin_requires_pinned bmC10 0 Buffer.new rfl).1 rfl,
    (bm_unpin_requires_pinned bmC10 1 { Buffer.new with pins := 2 } rfl).2
      (by decide)⟩

end Rsdb
